import Mathlib

/-!
Verification of the scanflash core against its specification.

Shallow embedding of the C++ sources:
* `device.cpp` — `store32le`, `lba2chs`, `writeEntry`, `Device::writePartitionTable`
  (the 512-byte MBR codec).  Machine integers (`block_t` = unsigned 64-bit,
  `uint32_t`, `uint8_t`, `unsigned int`) are modelled as `Nat` with explicit
  `% 2^w` where C truncation or wraparound can occur.  Byte buffers are
  modelled as total maps `Nat → Nat` (the MBR buffer after `memset(mbr,0,512)`
  is the constant-zero map), updated by `upd`/`writeBytes`.
* `check.cpp` — `prepareBuf` (the per-block verification pattern), the resume
  binary search in `Check::write`, the write pass with sync-failure recovery,
  and the read pass of `Check::read` with its bad-block envelope tracking and
  the final `writePartitionTable` call.
Device behaviour and user decisions are parameters (functions/lists), making
every definition executable.
-/

/-! ## Byte buffer primitives -/

/-- Point update of a byte map (a single `buf[off] = v` store). -/
def upd (m : Nat → Nat) (off v : Nat) : Nat → Nat :=
  fun i => if i = off then v else m i

/-- Store a list of bytes at consecutive offsets (memcpy-style). -/
def writeBytes (m : Nat → Nat) (off : Nat) : List Nat → (Nat → Nat)
  | [] => m
  | b :: bs => writeBytes (upd m off b) (off + 1) bs

/-- Unsigned 64-bit subtraction `a - b` (two's complement wraparound),
valid for `a < 2^64`, `b ≤ 2^64`. -/
def sub64 (a b : Nat) : Nat := (a + 2 ^ 64 - b) % 2 ^ 64

/-! ## device.cpp: the MBR codec -/

/-- The four little-endian bytes of a `uint32_t` value, as written by
`store32le` in device.cpp (`val & 0xFF`, `(val >> 8) & 0xFF`, …). -/
def le32bytes (v : Nat) : List Nat :=
  [v % 2 ^ 8, v / 2 ^ 8 % 2 ^ 8, v / 2 ^ 16 % 2 ^ 8, v / 2 ^ 24 % 2 ^ 8]

/-- Translation of `store32le(dest, val)` from device.cpp: write a 32-bit little-endian value
at offset `off`.  Callers pass `block_t` values through the `uint32_t`
parameter, so the truncation `% 2^32` happens at each call site below. -/
def store32le (m : Nat → Nat) (off val : Nat) : Nat → Nat :=
  writeBytes m off (le32bytes val)

/-- Translation of `lba2chs(lba, chs)` from device.cpp: the three CHS bytes for an LBA value.
`CHS_NUMSECTORS = 63`, `CHS_NUMHEADS = 16`; `cyls`, `heads`, `sectors` are
`unsigned int` (32-bit) locals, and each byte is cast to `uint8_t`. -/
def lba2chs (lba : Nat) : List Nat :=
  let cyls := lba / (63 * 16) % 2 ^ 32
  let heads := lba / 63 % 16 % 2 ^ 32
  let sectors := (lba % 63 + 1) % 2 ^ 32
  [heads % 2 ^ 8, (((cyls &&& 0x300) >>> 2) ||| sectors) % 2 ^ 8, (cyls &&& 0xFF) % 2 ^ 8]

/-- Translation of `writeEntry(mbr, index, start, end, type)` from device.cpp: write one
16-byte entry at `&mbr[0x1BE + index*16]`.  The LBA size field stores
`end - start + 1` (`block_t` arithmetic, then truncated to `uint32_t` by the
`store32le` parameter). -/
def writeEntry (m : Nat → Nat) (index start endSec typ : Nat) : Nat → Nat :=
  let part := 0x1BE + index * 16
  let m1 := writeBytes m (part + 0x1) (lba2chs start)
  let m2 := writeBytes m1 (part + 0x5) (lba2chs endSec)
  let m3 := upd m2 (part + 0x4) typ
  let m4 := store32le m3 (part + 0x8) (start % 2 ^ 32)
  store32le m4 (part + 0xC) ((sub64 endSec start + 1) % 2 ^ 64 % 2 ^ 32)

/-- The partition entries emitted by `Device::writePartitionTable`, in
emission order, as `(start sector, end sector, type)` triples.  The three
conditionals and the derived `start`/`end`/`num` mirror device.cpp lines
99–118 (`MBR_SECTOR_SIZE = 512`, `MBR_MIN_PART_SIZE = 16*1048576/512 = 32768`,
`MBR_PTYPE_GOOD = 0x0C`, `MBR_PTYPE_BAD = 0xFF`); parameters are `block_t`,
hence the `% 2^64`, and `num - MBR_MIN_PART_SIZE` is u64 subtraction. -/
def ptEntries (firstBad lastBad size : Nat) : List (Nat × Nat × Nat) :=
  let start := firstBad % 2 ^ 64 / 512
  let endSec := (lastBad % 2 ^ 64 + 1) % 2 ^ 64 / 512
  let num := size % 2 ^ 64 / 512
  (if 32768 < start then [(0, start, 0x0C)] else []) ++
    (if start ≠ 0 ∧ endSec ≠ 0 then [(start, endSec, 0xFF)] else []) ++
      (if endSec < sub64 num 32768 then [(endSec, num, 0x0C)] else [])

/-- Translation of `Device::writePartitionTable(firstBad, lastBad, size)` from device.cpp:
the full 512-byte MBR image, as a byte map.  The buffer starts zeroed
(`memset`), the 4-byte random serial (modelled by the parameter `serial`, a
`uint32_t` stored at 0x1B8 by an in-memory store on a little-endian host) is
written first, then up to three entries at slots `partNum = 0,1,2`, then the
boot signature `0x55 0xAA` at 0x1FE/0x1FF. -/
def writePartitionTable (firstBad lastBad size serial : Nat) : Nat → Nat :=
  let start := firstBad % 2 ^ 64 / 512
  let endSec := (lastBad % 2 ^ 64 + 1) % 2 ^ 64 / 512
  let num := size % 2 ^ 64 / 512
  let mbr1 := store32le (fun _ => 0) 0x1B8 (serial % 2 ^ 32)
  let s2 := if 32768 < start then (writeEntry mbr1 0 0 start 0x0C, 1) else (mbr1, 0)
  let s3 := if start ≠ 0 ∧ endSec ≠ 0 then
      (writeEntry s2.1 s2.2 start endSec 0xFF, s2.2 + 1) else s2
  let s4 := if endSec < sub64 num 32768 then
      (writeEntry s3.1 s3.2 endSec num 0x0C, s3.2 + 1) else s3
  upd (upd s4.1 0x1FE 0x55) 0x1FF 0xAA

/-- Decode the 32-bit little-endian value stored at offset `off` of a byte
map (inverse of `store32le` on in-range bytes). -/
def decode32at (m : Nat → Nat) (off : Nat) : Nat :=
  m off + 2 ^ 8 * m (off + 1) + 2 ^ 16 * m (off + 2) + 2 ^ 24 * m (off + 3)

/-- Folding `writeEntry` over a list of entries with consecutive slot
indices, exactly as the `partNum++` sequence of `writePartitionTable` does. -/
def applyEntries (m : Nat → Nat) (p : Nat) : List (Nat × Nat × Nat) → (Nat → Nat)
  | [] => m
  | e :: rest => applyEntries (writeEntry m p e.1 e.2.1 e.2.2) (p + 1) rest

/-! ## check.cpp: the verification pattern -/

/-- The eight little-endian bytes of a 64-bit value, as laid down by
`memcpy(&buf[i], &blockNum, sizeof(block_t))` on a little-endian host. -/
def le64bytes (v : Nat) : List Nat :=
  [v % 2 ^ 8, v / 2 ^ 8 % 2 ^ 8, v / 2 ^ 16 % 2 ^ 8, v / 2 ^ 24 % 2 ^ 8,
   v / 2 ^ 32 % 2 ^ 8, v / 2 ^ 40 % 2 ^ 8, v / 2 ^ 48 % 2 ^ 8, v / 2 ^ 56 % 2 ^ 8]

/-- Translation of `prepareBuf(buf, DATA_BLOCK_SIZE, blockNum)` from check.cpp: the 4096-byte
verification pattern of block `blockNum`.  The code increments `blockNum`
first (`block_t`, so mod `2^64`) and then tiles its 8-byte in-memory encoding
across the buffer in steps of `sizeof(block_t) = 8` (4096/8 = 512 copies). -/
def prepareBuf (blockNum : Nat) : List Nat :=
  List.flatten (List.replicate (4096 / 8) (le64bytes ((blockNum + 1) % 2 ^ 64)))

/-- True iff `memcmp(buf, prepareBuf(blockNum), 4096) == 0`: the buffer matches the
verification pattern of block `blockNum`. -/
def matchesPat (buf : List Nat) (blockNum : Nat) : Bool :=
  buf == prepareBuf blockNum

/-! ## check.cpp: resume binary search (Check::write lines 72–92) -/

/-- One run of the resume binary-search loop of `Check::write`:
`remainingBlocks = r`, `startBlock = s`; while `remainingBlocks > 1`, read
block `startBlock` (its match status is `matchb startBlock`), halve
`remainingBlocks`, and move `startBlock` forward on a match and backward
otherwise.  The loop terminates because `r` strictly decreases; the `fuel`
argument is a structural bound on the iteration count (any `fuel ≥ r`
is enough, see `resumeLoop_fuel`), keeping the definition computable. -/
def resumeLoop (matchb : Nat → Bool) : Nat → Nat → Nat → Nat
  | 0, _, s => s
  | fuel + 1, r, s =>
    if 1 < r then
      let r2 := r / 2
      if matchb s then resumeLoop matchb fuel r2 (s + r2)
      else resumeLoop matchb fuel r2 (s - r2)
    else s

/-- The resumed start block for a device of `n` blocks whose per-block match
status is `matchb`: the loop starts with `remainingBlocks = n / 2` and
`startBlock = n / 2` (check.cpp lines 72–73). -/
def resumeStart (matchb : Nat → Bool) (n : Nat) : Nat :=
  resumeLoop matchb (n / 2) (n / 2) (n / 2)

/-! ## check.cpp: read pass (Check::read lines 144–209) -/

/-- Result of reading one block: the read succeeded and the data matched the
pattern, the read succeeded but the data differed, or the read itself threw. -/
inductive ReadOutcome where
  | good : ReadOutcome
  | mismatch : ReadOutcome
  | ioerr : ReadOutcome
deriving DecidableEq, Repr

/-- The `fail` flag value after processing a block with the given outcome:
set only when the read itself threw (check.cpp lines 158 and 175). -/
def failOf : ReadOutcome → Bool
  | ReadOutcome.ioerr => true
  | _ => false

/-- The mutable state of the read loop: the `firstBad` flag and the
`firstBadBlock` / `lastBadBlock` envelope, plus the per-iteration `fail`
flag. -/
structure ReadSt where
  firstBad : Bool
  firstBadBlock : Nat
  lastBadBlock : Nat
  fail : Bool
deriving DecidableEq, Repr

/-- State update for block `b` (check.cpp lines 155–176): a mismatch or an
I/O error records the block in the envelope (`firstBadBlock` only the first
time, `lastBadBlock` always); `fail` is true only for an I/O error. -/
def readStep (o : ReadOutcome) (b : Nat) (st : ReadSt) : ReadSt :=
  match o with
  | ReadOutcome.good => { st with fail := false }
  | ReadOutcome.mismatch =>
      { firstBad := true
        firstBadBlock := if st.firstBad then st.firstBadBlock else b
        lastBadBlock := b
        fail := false }
  | ReadOutcome.ioerr =>
      { firstBad := true
        firstBadBlock := if st.firstBad then st.firstBadBlock else b
        lastBadBlock := b
        fail := true }

/-- A block is reported to the callback iff it is a multiple of 256 or its
read failed (check.cpp line 177). -/
def eligB (o : Nat → ReadOutcome) (b : Nat) : Bool :=
  (b % 256 == 0) || failOf (o b)

/-- The read loop of `Check::read` over blocks `b, b+1, …, b+rem-1`:
per-block outcomes come from `o`, and `c b fail` is the continue/abort answer
of `readProgress(b, fail)`.  Returns the loop result (`Except.error ()` is
the "Verification operation aborted" throw), the list of
`readProgress(b, fail)` invocations made, and the list of blocks read. -/
def readLoop (o : Nat → ReadOutcome) (c : Nat → Bool → Bool) :
    Nat → Nat → ReadSt → Except Unit ReadSt × List (Nat × Bool) × List Nat
  | 0, _, st => (Except.ok st, [], [])
  | rem + 1, b, st =>
    let st' := readStep (o b) b st
    if b % 256 = 0 ∨ st'.fail = true then
      if c b st'.fail then
        let r := readLoop o c rem (b + 1) st'
        (r.1, (b, st'.fail) :: r.2.1, b :: r.2.2)
      else (Except.error (), [(b, st'.fail)], [b])
    else
      let r := readLoop o c rem (b + 1) st'
      (r.1, r.2.1, b :: r.2.2)

/-- The whole read loop of a pass over `n` blocks, from block 0 with the
zero-initialised state. -/
def readRun (o : Nat → ReadOutcome) (c : Nat → Bool → Bool) (n : Nat) :
    Except Unit ReadSt × List (Nat × Bool) × List Nat :=
  readLoop o c n 0 ⟨false, 0, 0, false⟩

/-- The arguments `(firstBad, lastBad, size)` passed to
`writePartitionTable` at the end of `Check::read` (lines 201–209), or `none`
if the read pass was aborted.  `DATA_BLOCK_SIZE = 4096`; the `block_t`
products are taken mod `2^64`. -/
def checkReadPTArgs (o : Nat → ReadOutcome) (c : Nat → Bool → Bool) (n : Nat) :
    Option (Nat × Nat × Nat) :=
  match (readRun o c n).1 with
  | Except.ok st =>
      if st.firstBad then
        some (st.firstBadBlock * 4096 % 2 ^ 64,
          ((st.lastBadBlock + 1) * 4096 % 2 ^ 64 - 1) % 2 ^ 64,
          n * 4096 % 2 ^ 64)
      else some (0, 0, n * 4096 % 2 ^ 64)
  | Except.error _ => none

/-! ## check.cpp: write pass and sync-failure recovery (Check::write) -/

/-- Externally visible actions of `Check::write` after the resume decision. -/
inductive Act where
  | wr : Nat → Act
  | sync : Act
  | close : Act
  | prompt : Act
  | reopen : Act
deriving DecidableEq, Repr

/-- The sync-failure recovery loop of `Check::write` (lines 123–136): each
element of `attempts` is one round `(answer, reopenOk)` — the user's
continue answer, and whether `reopen()` then succeeded.  A "no" answer
throws "Aborted by user"; a successful reopen breaks out of the loop; a
failed reopen asks again.  Returns the recovery action trace, or `none` if
`attempts` does not determine an outcome. -/
def recoveryLoop : List (Bool × Bool) → Option (Except Unit (List Act))
  | [] => none
  | (ans, reopenOk) :: rest =>
    if ans then
      if reopenOk then some (Except.ok [Act.prompt, Act.reopen])
      else
        match recoveryLoop rest with
        | some (Except.ok acts) => some (Except.ok (Act.prompt :: Act.reopen :: acts))
        | some (Except.error e) => some (Except.error e)
        | none => none
    else some (Except.error ())

/-- Translation of `Check::write` from the start of the block-write loop onward (lines
100–138), as an action trace: write blocks `startBlock … n-1`, call
`sync()`; if sync fails (`syncOk = false`), close the device and run the
recovery loop. -/
def checkWriteRun (n startBlock : Nat) (syncOk : Bool)
    (attempts : List (Bool × Bool)) : Option (Except Unit (List Act)) :=
  let writeActs := (List.range' startBlock (n - startBlock)).map Act.wr
  if syncOk then some (Except.ok (writeActs ++ [Act.sync]))
  else
    match recoveryLoop attempts with
    | some (Except.ok racts) =>
        some (Except.ok (writeActs ++ [Act.sync, Act.close] ++ racts))
    | some (Except.error e) => some (Except.error e)
    | none => none

/-! ## Buffer readback lemmas -/

theorem upd_self (m : Nat → Nat) (off v : Nat) : upd m off v off = v := by
  simp [upd]

theorem upd_other (m : Nat → Nat) (off v i : Nat) (h : i ≠ off) :
    upd m off v i = m i := by
  simp [upd, h]

theorem writeBytes_apply (bs : List Nat) : ∀ (m : Nat → Nat) (off i : Nat),
    writeBytes m off bs i =
      if off ≤ i ∧ i < off + bs.length then bs.getD (i - off) 0 else m i := by
  induction bs with
  | nil =>
    intro m off i
    simp only [writeBytes, List.length_nil]
    rw [if_neg (by omega)]
  | cons b bs ih =>
    intro m off i
    simp only [writeBytes, List.length_cons]
    rw [ih]
    by_cases h1 : off + 1 ≤ i ∧ i < off + 1 + bs.length
    · rw [if_pos h1, if_pos (by omega)]
      have h2 : i - off = (i - (off + 1)) + 1 := by omega
      rw [h2, List.getD_cons_succ]
    · rw [if_neg h1]
      by_cases h3 : i = off
      · subst h3
        rw [if_pos (by omega)]
        simp [upd]
      · rw [upd_other _ _ _ _ h3, if_neg (by omega)]

theorem writeBytes_at (bs : List Nat) (m : Nat → Nat) (off i k : Nat)
    (hk : k < bs.length) (hi : i = off + k) :
    writeBytes m off bs i = bs.getD k 0 := by
  rw [writeBytes_apply, if_pos (by omega)]
  congr 1
  omega

theorem writeBytes_skip (bs : List Nat) (m : Nat → Nat) (off i : Nat)
    (h : i < off ∨ off + bs.length ≤ i) :
    writeBytes m off bs i = m i := by
  rw [writeBytes_apply, if_neg (by omega)]

theorem le32bytes_length (v : Nat) : (le32bytes v).length = 4 := rfl

theorem lba2chs_length (lba : Nat) : (lba2chs lba).length = 3 := rfl

/-! ## Bit-level helper lemmas for the CHS conversion -/

theorem land_mod_two_pow (x c n : Nat) (hc : c < 2 ^ n) :
    (x % 2 ^ n) &&& c = x &&& c := by
  apply Nat.eq_of_testBit_eq
  intro i
  rw [Nat.testBit_land, Nat.testBit_land, Nat.testBit_mod_two_pow]
  by_cases h : i < n
  · simp [h]
  · have hci : c < 2 ^ i := lt_of_lt_of_le hc (Nat.pow_le_pow_right (by omega) (by omega))
    simp [h, Nat.testBit_lt_two_pow hci]

theorem land_shift_lt (x : Nat) : (x &&& 0x300) >>> 2 < 2 ^ 8 := by
  have h1 : x &&& 0x300 ≤ 0x300 := Nat.and_le_right
  rw [Nat.shiftRight_eq_div_pow]
  omega

/-- C6: `lba2chs` realises exactly the specified CHS conversion and packing —
`cylinder = lba / (63*16)`, `head = (lba / 63) mod 16`,
`sector = (lba mod 63) + 1`, packed as `[head, ((cylinder & 0x300) >> 2) | sector,
cylinder & 0xFF]` — for every LBA value; in particular `lba = 0` gives head 0,
sector 1, cylinder 0 and `lba = 63` gives head 1, sector 1, cylinder 0. -/
theorem lba2chs_spec :
    (∀ lba : Nat,
      lba2chs lba =
        [lba / 63 % 16,
         ((lba / (63 * 16) &&& 0x300) >>> 2) ||| (lba % 63 + 1),
         lba / (63 * 16) &&& 0xFF]) ∧
    lba2chs 0 = [0, 1, 0] ∧ lba2chs 63 = [1, 1, 0] := by
  refine ⟨fun lba => ?_, by decide, by decide⟩
  unfold lba2chs
  have e1 : lba / 63 % 16 % 2 ^ 32 % 2 ^ 8 = lba / 63 % 16 := by omega
  have e2 : (lba % 63 + 1) % 2 ^ 32 = lba % 63 + 1 := by omega
  have e3 : (lba / (63 * 16) % 2 ^ 32) &&& 0x300 = lba / (63 * 16) &&& 0x300 :=
    land_mod_two_pow _ _ _ (by norm_num)
  have e4 : (lba / (63 * 16) % 2 ^ 32) &&& 0xFF = lba / (63 * 16) &&& 0xFF :=
    land_mod_two_pow _ _ _ (by norm_num)
  have e5 : ((lba / (63 * 16) &&& 0x300) >>> 2) ||| (lba % 63 + 1) < 2 ^ 8 :=
    Nat.or_lt_two_pow (land_shift_lt _) (by omega)
  have e6 : lba / (63 * 16) &&& 0xFF < 2 ^ 8 := by
    have := Nat.and_le_right (n := lba / (63 * 16)) (m := 0xFF)
    omega
  simp only [e1, e2, e3, e4]
  rw [Nat.mod_eq_of_lt e5, Nat.mod_eq_of_lt e6]

/-! ## Pattern codec lemmas -/

theorem le64bytes_inj (v w : Nat) (hv : v < 2 ^ 64) (hw : w < 2 ^ 64)
    (h : le64bytes v = le64bytes w) : v = w := by
  simp only [le64bytes, List.cons.injEq, and_true] at h
  omega

theorem prepareBuf_head (b : Nat) :
    prepareBuf b = le64bytes ((b + 1) % 2 ^ 64) ++
      List.flatten (List.replicate 511 (le64bytes ((b + 1) % 2 ^ 64))) := by
  rw [prepareBuf, show (4096 / 8) = 511 + 1 from rfl, List.replicate_succ,
    List.flatten_cons]

/-- C3: the verification pattern is pure and deterministic — `prepareBuf b`
tiles the 8-byte encoding of `b + 1` (as a 64-bit value), two evaluations
agree, the pattern matches itself, and two blocks whose `b + 1` values differ
as 64-bit values get different patterns. -/
theorem prepareBuf_spec :
    (∀ b : Nat, prepareBuf b = prepareBuf b) ∧
    (∀ b : Nat,
      prepareBuf b =
        List.flatten (List.replicate 512 (le64bytes ((b + 1) % 2 ^ 64)))) ∧
    (∀ b : Nat, matchesPat (prepareBuf b) b = true) ∧
    (∀ b1 b2 : Nat, (b1 + 1) % 2 ^ 64 ≠ (b2 + 1) % 2 ^ 64 →
      prepareBuf b1 ≠ prepareBuf b2) := by
  refine ⟨fun b => rfl, fun b => rfl, fun b => by simp [matchesPat], ?_⟩
  intro b1 b2 hne heq
  apply hne
  rw [prepareBuf_head, prepareBuf_head] at heq
  have hlen : (le64bytes ((b1 + 1) % 2 ^ 64)).length =
      (le64bytes ((b2 + 1) % 2 ^ 64)).length := rfl
  exact le64bytes_inj _ _ (Nat.mod_lt _ (by norm_num)) (Nat.mod_lt _ (by norm_num))
    (List.append_inj heq hlen).1

/-- Witness for C3 at concrete blocks: block 5 matches its own pattern, and
blocks 0 and 1 have different patterns. -/
theorem prepareBuf_spec_witness :
    matchesPat (prepareBuf 5) 5 = true ∧ prepareBuf 0 ≠ prepareBuf 1 :=
  ⟨prepareBuf_spec.2.2.1 5, prepareBuf_spec.2.2.2 0 1 (by decide)⟩

/-! ## Entry-emission lemmas -/

/-- C7: with the all-good sentinel `firstBad = 0, lastBad = 0`, on a device
with more than `MBR_MIN_PART_SIZE = 32768` sectors, exactly one entry is
emitted: a good-type (0x0C) entry covering sectors `[0, num)`; the
leading-good and bad-region entries are both skipped. -/
theorem ptEntries_allgood (size : Nat) (h : 32768 < size % 2 ^ 64 / 512) :
    ptEntries 0 0 size = [(0, size % 2 ^ 64 / 512, 0x0C)] := by
  unfold ptEntries
  simp only [Nat.zero_mod, Nat.zero_div, Nat.zero_add]
  rw [if_neg (by omega), if_neg (by simp), if_pos (by unfold sub64; omega)]
  simp

/-- Witness for C7: a 1 GiB device (2,097,152 sectors). -/
theorem ptEntries_allgood_witness :
    ptEntries 0 0 1073741824 = [(0, 2097152, 0x0C)] :=
  (ptEntries_allgood 1073741824 (by decide)).trans (by decide)

/-- C10: when the bad region starts in sector 0 (`firstBad < 512`) while
`end` is nonzero, no bad-type (0xFF) entry and no leading good-type entry is
emitted: the table is either empty or a single trailing good-type entry
starting at sector `end = (lastBad + 1) / 512`. -/
theorem ptEntries_badAtZero (firstBad lastBad size : Nat)
    (h1 : firstBad < 512) (h2 : 512 ≤ lastBad + 1) (h3 : lastBad + 1 < 2 ^ 64) :
    (∀ e ∈ ptEntries firstBad lastBad size, e.2.2 ≠ 0xFF) ∧
    (ptEntries firstBad lastBad size = [] ∨
      ptEntries firstBad lastBad size =
        [((lastBad + 1) / 512, size % 2 ^ 64 / 512, 0x0C)]) := by
  have hs : firstBad % 2 ^ 64 / 512 = 0 := by omega
  have he : (lastBad % 2 ^ 64 + 1) % 2 ^ 64 / 512 = (lastBad + 1) / 512 := by
    omega
  unfold ptEntries
  simp only [hs, he]
  rw [if_neg (by omega), if_neg (by simp)]
  by_cases h4 : (lastBad + 1) / 512 < sub64 (size % 2 ^ 64 / 512) 32768
  · rw [if_pos h4]
    refine ⟨?_, Or.inr (by simp)⟩
    intro e he
    simp only [List.nil_append, List.mem_singleton] at he
    simp [he]
  · rw [if_neg h4]
    exact ⟨by simp, Or.inl (by simp)⟩

/-- Witness for C10: bad bytes 100–1000, 1 GiB device: only the trailing
good entry `[1, 2097152)` appears. -/
theorem ptEntries_badAtZero_witness :
    ptEntries 100 1000 1073741824 = [] ∨
      ptEntries 100 1000 1073741824 = [(1, 2097152, 0x0C)] := by
  have h := (ptEntries_badAtZero 100 1000 1073741824 (by norm_num) (by norm_num)
    (by norm_num)).2
  simpa using h

/-! ## Resume binary-search lemmas -/

theorem resumeLoop_fuel (matchb : Nat → Bool) :
    ∀ fuel1 fuel2 r s, r ≤ fuel1 + 1 → r ≤ fuel2 + 1 →
      resumeLoop matchb fuel1 r s = resumeLoop matchb fuel2 r s := by
  intro fuel1
  induction fuel1 with
  | zero =>
    intro fuel2 r s h1 h2
    cases fuel2 with
    | zero => rfl
    | succ f2 =>
      simp only [resumeLoop]
      rw [if_neg (by omega)]
  | succ f1 ih =>
    intro fuel2 r s h1 h2
    cases fuel2 with
    | zero =>
      simp only [resumeLoop]
      rw [if_neg (by omega)]
    | succ f2 =>
      simp only [resumeLoop]
      by_cases hr : 1 < r
      · rw [if_pos hr, if_pos hr]
        have hdiv : r / 2 ≤ f1 + 1 := by omega
        have hdiv2 : r / 2 ≤ f2 + 1 := by omega
        by_cases hm : matchb s
        · simp only [hm, if_true]
          exact ih f2 (r / 2) (s + r / 2) hdiv hdiv2
        · simp only [hm, if_false]
          exact ih f2 (r / 2) (s - r / 2) hdiv hdiv2
      · rw [if_neg hr, if_neg hr]

theorem resumeLoop_bound (matchb : Nat → Bool) (k : Nat)
    (hm : ∀ b, matchb b = decide (b < k)) :
    ∀ fuel r s j, r = 2 ^ j → r ≤ fuel + 1 → r ≤ s → s + 1 ≤ k + r →
      resumeLoop matchb fuel r s ≤ k := by
  intro fuel
  induction fuel with
  | zero =>
    intro r s j hj hfuel hrs hsk
    have h1 : 1 ≤ r := hj ▸ Nat.one_le_two_pow
    have hr1 : r = 1 := by omega
    simp only [resumeLoop]
    omega
  | succ f ih =>
    intro r s j hj hfuel hrs hsk
    have h1 : 1 ≤ r := hj ▸ Nat.one_le_two_pow
    simp only [resumeLoop]
    by_cases hr : 1 < r
    · rw [if_pos hr]
      have hj1 : 1 ≤ j := by
        by_contra hc
        interval_cases j
        omega
      have hpow : r = 2 ^ (j - 1) * 2 := by
        rw [hj, ← pow_succ]
        congr 1
        omega
      have hhalf : r / 2 = 2 ^ (j - 1) := by omega
      rw [hm s]
      by_cases hsk' : s < k
      · rw [if_pos (by simp [hsk'])]
        exact ih (r / 2) (s + r / 2) (j - 1) hhalf (by omega) (by omega) (by omega)
      · rw [if_neg (by simp [hsk'])]
        exact ih (r / 2) (s - r / 2) (j - 1) hhalf (by omega) (by omega) (by omega)
    · rw [if_neg hr]
      omega

/-- C2 counterexample: a 6-block device whose written region is exactly the
prefix `[0, 1)` (only block 0 written).  The resume binary search lands on
start block 2, which exceeds `k = 1`, so the unwritten block 1 would be
skipped — the claim as stated fails for non-power-of-two block counts. -/
theorem resume_counterexample :
    resumeStart (fun b => decide (b < 1)) 6 = 2 ∧
      ¬ resumeStart (fun b => decide (b < 1)) 6 ≤ 1 := by
  decide

/-- C2 (amended): on a device of `n = 2^t` blocks whose written region is
exactly the contiguous prefix `[0, k)` with `k ≥ 1` (resume is only offered
when block 0 matches), the resume binary search terminates with a start
block `≤ k`, so no unwritten block is skipped. -/
theorem resume_le_of_pow2 (matchb : Nat → Bool) (n k t : Nat)
    (hn : n = 2 ^ t) (hk : 1 ≤ k) (hm : ∀ b, matchb b = decide (b < k)) :
    resumeStart matchb n ≤ k := by
  subst hn
  unfold resumeStart
  cases t with
  | zero =>
    simp only [pow_zero]
    simp only [resumeLoop]
    omega
  | succ t' =>
    have hhalf : 2 ^ (t' + 1) / 2 = 2 ^ t' := by
      rw [pow_succ]
      omega
    rw [hhalf]
    exact resumeLoop_bound matchb k hm (2 ^ t') (2 ^ t') (2 ^ t') t' rfl
      (by omega) le_rfl (by omega)

/-- Witness for the amended C2: 8 blocks, written prefix `[0, 3)`. -/
theorem resume_le_of_pow2_witness :
    resumeStart (fun b => decide (b < 3)) 8 ≤ 3 :=
  resume_le_of_pow2 (fun b => decide (b < 3)) 8 3 3 (by norm_num) (by norm_num)
    (fun b => rfl)

/-! ## Sync-failure recovery lemmas -/

theorem recoveryLoop_success (rest : List (Bool × Bool)) :
    ∀ j : Nat,
      recoveryLoop (List.replicate j (true, false) ++ (true, true) :: rest) =
        some (Except.ok
          (List.flatten (List.replicate (j + 1) [Act.prompt, Act.reopen]))) := by
  intro j
  induction j with
  | zero => simp [recoveryLoop]
  | succ j ih =>
    rw [List.replicate_succ, List.cons_append]
    simp only [recoveryLoop, if_true]
    rw [ih]
    simp [List.replicate_succ, List.flatten_cons]

/-- C9: if `sync()` fails after the write pass, the engine closes the device
and enters the reopen retry loop.  A "no" answer at the first prompt aborts
with an error; if the user keeps answering yes and the `(j+1)`-st reopen
attempt succeeds, the run completes with each failed reopen followed by a
fresh prompt, the same block writes as a run whose sync succeeded (each block
written exactly once, none re-run after recovery), then sync, close, and
`j + 1` prompt/reopen rounds. -/
theorem checkWrite_syncRecovery (n startBlock j : Nat) (ro : Bool)
    (rest : List (Bool × Bool)) :
    checkWriteRun n startBlock false ((false, ro) :: rest) =
      some (Except.error ()) ∧
    checkWriteRun n startBlock false
        (List.replicate j (true, false) ++ (true, true) :: rest) =
      some (Except.ok
        ((List.range' startBlock (n - startBlock)).map Act.wr ++
          [Act.sync, Act.close] ++
          List.flatten (List.replicate (j + 1) [Act.prompt, Act.reopen]))) ∧
    checkWriteRun n startBlock true rest =
      some (Except.ok
        ((List.range' startBlock (n - startBlock)).map Act.wr ++ [Act.sync])) := by
  refine ⟨?_, ?_, ?_⟩
  · simp [checkWriteRun, recoveryLoop]
  · simp only [checkWriteRun, if_false, Bool.false_eq_true]
    rw [recoveryLoop_success]
  · simp [checkWriteRun]

/-! ## Read-pass trace lemmas -/

theorem readStep_fail (o : ReadOutcome) (b : Nat) (st : ReadSt) :
    (readStep o b st).fail = failOf o := by
  cases o <;> rfl

theorem eligB_iff (o : Nat → ReadOutcome) (b : Nat) :
    eligB o b = true ↔ (b % 256 = 0 ∨ failOf (o b) = true) := by
  unfold eligB
  cases h : failOf (o b) <;> simp [Nat.beq_eq]

theorem readLoop_complete (o : Nat → ReadOutcome) (c : Nat → Bool → Bool) :
    ∀ rem b st,
      (∀ x, b ≤ x → x < b + rem → eligB o x = true → c x (failOf (o x)) = true) →
      ∃ st', readLoop o c rem b st =
        (Except.ok st',
         ((List.range' b rem).filter (eligB o)).map (fun x => (x, failOf (o x))),
         List.range' b rem) := by
  intro rem
  induction rem with
  | zero => intro b st _; exact ⟨st, rfl⟩
  | succ rem ih =>
    intro b st h
    have hfail : (readStep (o b) b st).fail = failOf (o b) := readStep_fail _ _ _
    obtain ⟨st', hst'⟩ := ih (b + 1) (readStep (o b) b st)
      (fun x hx1 hx2 => h x (by omega) (by omega))
    rw [List.range'_succ, List.filter_cons]
    simp only [readLoop, hfail]
    by_cases he : eligB o b = true
    · have hc : c b (failOf (o b)) = true := h b le_rfl (by omega) he
      rw [if_pos ((eligB_iff o b).1 he), if_pos hc, hst']
      refine ⟨st', ?_⟩
      simp [he]
    · rw [if_neg (fun hcond => he ((eligB_iff o b).2 hcond)), hst']
      refine ⟨st', ?_⟩
      simp [he]

theorem readLoop_abort (o : Nat → ReadOutcome) (c : Nat → Bool → Bool) :
    ∀ rem b st a, b ≤ a → a < b + rem → eligB o a = true →
      c a (failOf (o a)) = false →
      (∀ x, b ≤ x → x < a → eligB o x = true → c x (failOf (o x)) = true) →
      readLoop o c rem b st =
        (Except.error (),
         ((List.range' b (a + 1 - b)).filter (eligB o)).map
           (fun x => (x, failOf (o x))),
         List.range' b (a + 1 - b)) := by
  intro rem
  induction rem with
  | zero => intro b st a h1 h2; omega
  | succ rem ih =>
    intro b st a h1 h2 ha hc hbefore
    have hfail : (readStep (o b) b st).fail = failOf (o b) := readStep_fail _ _ _
    simp only [readLoop, hfail]
    by_cases hb : b = a
    · subst hb
      rw [if_pos ((eligB_iff o b).1 ha), hc]
      rw [show b + 1 - b = 1 by omega]
      rw [List.range'_succ]
      simp [ha]
    · have hab : b < a := by omega
      have hstep : b + 1 ≤ a := by omega
      have hrec := ih (b + 1) (readStep (o b) b st) a hstep (by omega) ha hc
        (fun x hx1 hx2 => hbefore x (by omega) hx2)
      have hsplit : a + 1 - b = (a + 1 - (b + 1)) + 1 := by omega
      rw [hsplit, List.range'_succ, List.filter_cons]
      by_cases he : eligB o b = true
      · have hcb : c b (failOf (o b)) = true := hbefore b le_rfl hab he
        rw [if_pos ((eligB_iff o b).1 he), hcb, hrec]
        simp [he]
      · rw [if_neg (fun hcond => he ((eligB_iff o b).2 hcond)), hrec]
        simp [he]

/-- C8: during the read pass the `readProgress` callback is invoked exactly
on the blocks that are multiples of 256 or whose read failed, with the
failure flag equal to the block's failure status; if every such invocation
returns true the pass completes having read all `n` blocks, and as soon as
one returns false the pass stops with the "Verification operation aborted"
error, reading no block beyond the one that triggered it. -/
theorem readRun_progress (o : Nat → ReadOutcome) (c : Nat → Bool → Bool)
    (n : Nat) :
    ((∀ x, x < n → eligB o x = true → c x (failOf (o x)) = true) →
      ∃ st, readRun o c n =
        (Except.ok st,
         ((List.range n).filter (eligB o)).map (fun x => (x, failOf (o x))),
         List.range n)) ∧
    (∀ a, a < n → eligB o a = true → c a (failOf (o a)) = false →
      (∀ x, x < a → eligB o x = true → c x (failOf (o x)) = true) →
      readRun o c n =
        (Except.error (),
         ((List.range (a + 1)).filter (eligB o)).map
           (fun x => (x, failOf (o x))),
         List.range (a + 1))) := by
  constructor
  · intro h
    obtain ⟨st, hst⟩ := readLoop_complete o c n 0 ⟨false, 0, 0, false⟩
      (fun x hx1 hx2 => h x (by omega))
    exact ⟨st, by rw [readRun, hst, List.range_eq_range']⟩
  · intro a ha helig hc hbefore
    have h := readLoop_abort o c n 0 ⟨false, 0, 0, false⟩ a (by omega) (by omega)
      helig hc (fun x hx1 hx2 => hbefore x hx2)
    rw [readRun, h, List.range_eq_range']
    simp

/-- Witness for C8: three blocks, an I/O failure at block 1, a callback that
aborts at block 1: blocks 0 and 1 are read, the callback sees `(0, false)`
and `(1, true)`, and the pass ends in the aborted error. -/
theorem readRun_progress_witness :
    readRun (fun b => if b = 1 then ReadOutcome.ioerr else ReadOutcome.good)
        (fun b _ => b != 1) 3 =
      (Except.error (), [(0, false), (1, true)], [0, 1]) := by
  have h := (readRun_progress
    (fun b => if b = 1 then ReadOutcome.ioerr else ReadOutcome.good)
    (fun b _ => b != 1) 3).2 1 (by decide) (by decide) (by decide)
    (by decide)
  rw [h]
  simp only [Prod.mk.injEq]
  exact ⟨trivial, by decide, by decide⟩

/-! ## Read-pass envelope-tracking lemmas -/

theorem readStep_firstBad_true (ob : ReadOutcome) (b : Nat) (st : ReadSt)
    (h : st.firstBad = true) :
    (readStep ob b st).firstBad = true ∧
    (readStep ob b st).firstBadBlock = st.firstBadBlock ∧
    (readStep ob b st).lastBadBlock =
      if ob = ReadOutcome.good then st.lastBadBlock else b := by
  cases ob <;> simp [readStep, h]

theorem readLoop_track_true (o : Nat → ReadOutcome) (c : Nat → Bool → Bool) :
    ∀ rem b st st', st.firstBad = true →
      (readLoop o c rem b st).1 = Except.ok st' →
      st'.firstBad = true ∧ st'.firstBadBlock = st.firstBadBlock ∧
      ((∀ x, b ≤ x → x < b + rem → o x = ReadOutcome.good) →
        st'.lastBadBlock = st.lastBadBlock) ∧
      (∀ x, b ≤ x → x < b + rem → o x ≠ ReadOutcome.good →
        b ≤ st'.lastBadBlock ∧ st'.lastBadBlock < b + rem ∧
        o st'.lastBadBlock ≠ ReadOutcome.good ∧
        ∀ y, st'.lastBadBlock < y → y < b + rem → o y = ReadOutcome.good) := by
  intro rem
  induction rem with
  | zero =>
    intro b st st' hfb h
    simp only [readLoop, Except.ok.injEq] at h
    subst h
    exact ⟨hfb, rfl, fun _ => rfl, fun x hx1 hx2 => by omega⟩
  | succ rem ih =>
    intro b st st' hfb h
    obtain ⟨hfb1, hfbb1, hlbb1⟩ := readStep_firstBad_true (o b) b st hfb
    simp only [readLoop] at h
    have hrec : (readLoop o c rem (b + 1) (readStep (o b) b st)).1 =
        Except.ok st' := by
      by_cases h1 : b % 256 = 0 ∨ (readStep (o b) b st).fail = true
      · rw [if_pos h1] at h
        by_cases h2 : c b (readStep (o b) b st).fail
        · rwa [if_pos h2] at h
        · rw [if_neg h2] at h
          exact absurd h (by simp)
      · rwa [if_neg h1] at h
    obtain ⟨hfb', hfbb', hsame, hlast⟩ :=
      ih (b + 1) (readStep (o b) b st) st' hfb1 hrec
    refine ⟨hfb', hfbb'.trans hfbb1, ?_, ?_⟩
    · intro hall
      have hgb : o b = ReadOutcome.good := hall b le_rfl (by omega)
      rw [hsame (fun x hx1 hx2 => hall x (by omega) (by omega)), hlbb1,
        if_pos hgb]
    · intro x hx1 hx2 hxbad
      by_cases hrest : ∀ y, b + 1 ≤ y → y < b + 1 + rem → o y = ReadOutcome.good
      · have hxb : x = b := by
          by_contra hxb
          exact hxbad (hrest x (by omega) (by omega))
        subst hxb
        have hlb : st'.lastBadBlock = (readStep (o x) x st).lastBadBlock :=
          hsame hrest
        rw [hlb, hlbb1, if_neg hxbad]
        exact ⟨le_rfl, by omega, hxbad,
          fun y hy1 hy2 => hrest y (by omega) (by omega)⟩
      · push_neg at hrest
        obtain ⟨y, hy1, hy2, hybad⟩ := hrest
        obtain ⟨ha, hb', hc', hd⟩ := hlast y hy1 hy2 hybad
        exact ⟨by omega, by omega, hc', fun z hz1 hz2 => hd z hz1 (by omega)⟩

theorem readLoop_ok_rec (o : Nat → ReadOutcome) (c : Nat → Bool → Bool)
    (rem b : Nat) (st : ReadSt) (st' : ReadSt)
    (h : (readLoop o c (rem + 1) b st).1 = Except.ok st') :
    (readLoop o c rem (b + 1) (readStep (o b) b st)).1 = Except.ok st' := by
  simp only [readLoop] at h
  by_cases h1 : b % 256 = 0 ∨ (readStep (o b) b st).fail = true
  · rw [if_pos h1] at h
    by_cases h2 : c b (readStep (o b) b st).fail
    · rwa [if_pos h2] at h
    · rw [if_neg h2] at h
      exact absurd h (by simp)
  · rwa [if_neg h1] at h

theorem readLoop_track_false (o : Nat → ReadOutcome) (c : Nat → Bool → Bool) :
    ∀ rem b st st', st.firstBad = false →
      (readLoop o c rem b st).1 = Except.ok st' →
      (st'.firstBad = false →
        (∀ x, b ≤ x → x < b + rem → o x = ReadOutcome.good) ∧
        st'.firstBadBlock = st.firstBadBlock ∧
        st'.lastBadBlock = st.lastBadBlock) ∧
      (st'.firstBad = true →
        (b ≤ st'.firstBadBlock ∧ st'.firstBadBlock < b + rem ∧
          o st'.firstBadBlock ≠ ReadOutcome.good ∧
          ∀ y, b ≤ y → y < st'.firstBadBlock → o y = ReadOutcome.good) ∧
        (b ≤ st'.lastBadBlock ∧ st'.lastBadBlock < b + rem ∧
          o st'.lastBadBlock ≠ ReadOutcome.good ∧
          ∀ y, st'.lastBadBlock < y → y < b + rem → o y = ReadOutcome.good)) := by
  intro rem
  induction rem with
  | zero =>
    intro b st st' hfb h
    simp only [readLoop, Except.ok.injEq] at h
    subst h
    refine ⟨fun _ => ⟨fun x hx1 hx2 => by omega, rfl, rfl⟩, fun h' => ?_⟩
    rw [hfb] at h'
    exact absurd h' (by simp)
  | succ rem ih =>
    intro b st st' hfb h
    have hrec := readLoop_ok_rec o c rem b st st' h
    by_cases hgb : o b = ReadOutcome.good
    · have hst1 : readStep (o b) b st = { st with fail := false } := by
        rw [hgb]; rfl
      rw [hst1] at hrec
      obtain ⟨hfalse, htrue⟩ := ih (b + 1) { st with fail := false } st' hfb hrec
      constructor
      · intro h'
        obtain ⟨hall, hfbb, hlbb⟩ := hfalse h'
        refine ⟨fun x hx1 hx2 => ?_, hfbb, hlbb⟩
        by_cases hxb : x = b
        · rwa [hxb]
        · exact hall x (by omega) (by omega)
      · intro h'
        obtain ⟨hfirst, hlast⟩ := htrue h'
        refine ⟨⟨by omega, by omega, hfirst.2.2.1, fun y hy1 hy2 => ?_⟩,
          ⟨by omega, by omega, hlast.2.2.1, fun y hy1 hy2 => hlast.2.2.2 y hy1 (by omega)⟩⟩
        by_cases hyb : y = b
        · rwa [hyb]
        · exact hfirst.2.2.2 y (by omega) hy2
    · have hst1fb : (readStep (o b) b st).firstBad = true ∧
          (readStep (o b) b st).firstBadBlock = b ∧
          (readStep (o b) b st).lastBadBlock = b := by
        cases hob : o b
        · exact absurd hob hgb
        · simp [readStep, hfb, hob]
        · simp [readStep, hfb, hob]
      obtain ⟨h1, h2, h3⟩ := hst1fb
      obtain ⟨hfb', hfbb', hsame, hlast⟩ :=
        readLoop_track_true o c rem (b + 1) (readStep (o b) b st) st' h1 hrec
      constructor
      · intro h'
        rw [hfb'] at h'
        exact absurd h' (by simp)
      · intro _
        refine ⟨⟨by omega, by omega, by rwa [hfbb'.trans h2],
          fun y hy1 hy2 => by rw [hfbb'.trans h2] at hy2; omega⟩, ?_⟩
        by_cases hrest : ∀ y, b + 1 ≤ y → y < b + 1 + rem → o y = ReadOutcome.good
        · have hlb : st'.lastBadBlock = b := (hsame hrest).trans h3
          exact ⟨by omega, by omega, by rwa [hlb],
            fun y hy1 hy2 => by rw [hlb] at hy1; exact hrest y (by omega) (by omega)⟩
        · push_neg at hrest
          obtain ⟨y, hy1, hy2, hybad⟩ := hrest
          obtain ⟨ha, hb', hc', hd⟩ := hlast y hy1 hy2 hybad
          exact ⟨by omega, by omega, hc', fun z hz1 hz2 => hd z hz1 (by omega)⟩

/-- C4: at the end of every completed read pass the partition-table call is
made from exactly one of two branches, selected by the `firstBad` flag,
which is set iff some block in `[0, n)` mismatched or failed.  In the
bad branch the arguments are `firstBadBlock * 4096` and
`(lastBadBlock + 1) * 4096 - 1`, where `firstBadBlock` is the least bad
block and `lastBadBlock` the greatest; in the all-good branch the sentinel
arguments `(0, 0)` are passed. -/
theorem checkRead_branches (o : Nat → ReadOutcome) (c : Nat → Bool → Bool)
    (n : Nat) (st : ReadSt) (h : (readRun o c n).1 = Except.ok st)
    (hn : n * 4096 < 2 ^ 64) :
    (st.firstBad = true ↔ ∃ x, x < n ∧ o x ≠ ReadOutcome.good) ∧
    (st.firstBad = true →
      checkReadPTArgs o c n =
        some (st.firstBadBlock * 4096, (st.lastBadBlock + 1) * 4096 - 1,
          n * 4096) ∧
      (st.firstBadBlock < n ∧ o st.firstBadBlock ≠ ReadOutcome.good ∧
        ∀ y, y < st.firstBadBlock → o y = ReadOutcome.good) ∧
      (st.lastBadBlock < n ∧ o st.lastBadBlock ≠ ReadOutcome.good ∧
        ∀ y, st.lastBadBlock < y → y < n → o y = ReadOutcome.good)) ∧
    (st.firstBad = false → checkReadPTArgs o c n = some (0, 0, n * 4096)) := by
  have htrack := readLoop_track_false o c n 0 ⟨false, 0, 0, false⟩ st rfl h
  have hiff : st.firstBad = true ↔ ∃ x, x < n ∧ o x ≠ ReadOutcome.good := by
    constructor
    · intro h'
      obtain ⟨hfirst, _⟩ := htrack.2 h'
      exact ⟨st.firstBadBlock, by omega, hfirst.2.2.1⟩
    · intro ⟨x, hx, hxbad⟩
      by_contra h'
      have hfb : st.firstBad = false := by
        cases hst : st.firstBad
        · rfl
        · exact absurd hst h'
      exact hxbad ((htrack.1 hfb).1 x (by omega) (by omega))
  refine ⟨hiff, fun h' => ?_, fun h' => ?_⟩
  · obtain ⟨hfirst, hlast⟩ := htrack.2 h'
    have hmodn : n * 4096 % 2 ^ 64 = n * 4096 := by omega
    have hmodf : st.firstBadBlock * 4096 % 2 ^ 64 = st.firstBadBlock * 4096 := by
      have : st.firstBadBlock < n := by omega
      have : st.firstBadBlock * 4096 ≤ n * 4096 := by
        exact Nat.mul_le_mul_right _ (by omega)
      omega
    have hmodl : (st.lastBadBlock + 1) * 4096 % 2 ^ 64 =
        (st.lastBadBlock + 1) * 4096 := by
      have : st.lastBadBlock < n := by omega
      have : (st.lastBadBlock + 1) * 4096 ≤ n * 4096 := by
        exact Nat.mul_le_mul_right _ (by omega)
      omega
    have harith : ((st.lastBadBlock + 1) * 4096 % 2 ^ 64 - 1) % 2 ^ 64 =
        (st.lastBadBlock + 1) * 4096 - 1 := by
      rw [hmodl]
      have : (st.lastBadBlock + 1) * 4096 ≤ n * 4096 := by
        have : st.lastBadBlock < n := by omega
        exact Nat.mul_le_mul_right _ (by omega)
      omega
    refine ⟨?_, ⟨by omega, hfirst.2.2.1, fun y hy => hfirst.2.2.2 y (by omega) hy⟩,
      ⟨by omega, hlast.2.2.1, fun y hy1 hy2 => hlast.2.2.2 y hy1 (by omega)⟩⟩
    unfold checkReadPTArgs
    rw [h]
    simp only [h', if_true]
    rw [hmodn, hmodf, harith]
  · unfold checkReadPTArgs
    rw [h]
    simp only [h', Bool.false_eq_true, if_false]
    rw [show n * 4096 % 2 ^ 64 = n * 4096 by omega]

/-- Witness for C4: three blocks with a mismatch at block 1 — the bad branch
passes byte offsets `(4096, 8191)` and the device size `12288`. -/
theorem checkRead_branches_witness :
    checkReadPTArgs
        (fun b => if b = 1 then ReadOutcome.mismatch else ReadOutcome.good)
        (fun _ _ => true) 3 = some (4096, 8191, 12288) := by
  have h := (checkRead_branches
    (fun b => if b = 1 then ReadOutcome.mismatch else ReadOutcome.good)
    (fun _ _ => true) 3 ⟨true, 1, 1, false⟩ rfl (by norm_num)).2.1 rfl
  exact h.1.trans (by rfl)

/-! ## writeEntry readback lemmas -/

theorem writeEntry_out (m : Nat → Nat) (idx s e t i : Nat)
    (h : i < 0x1BE + idx * 16 + 1 ∨ 0x1BE + idx * 16 + 16 ≤ i) :
    writeEntry m idx s e t i = m i := by
  simp only [writeEntry, store32le]
  rw [writeBytes_skip, writeBytes_skip, upd_other, writeBytes_skip,
    writeBytes_skip]
  all_goals first
    | omega
    | (simp only [le32bytes_length, lba2chs_length]; omega)

theorem writeEntry_chs_s (m : Nat → Nat) (idx s e t j : Nat) (hj : j < 3) :
    writeEntry m idx s e t (0x1BE + idx * 16 + 1 + j) = (lba2chs s).getD j 0 := by
  simp only [writeEntry, store32le]
  rw [writeBytes_skip, writeBytes_skip, upd_other, writeBytes_skip]
  · exact writeBytes_at _ _ _ _ j (by simp only [lba2chs_length]; omega) (by omega)
  all_goals omega

theorem writeEntry_type (m : Nat → Nat) (idx s e t : Nat) :
    writeEntry m idx s e t (0x1BE + idx * 16 + 0x4) = t := by
  simp only [writeEntry, store32le]
  rw [writeBytes_skip, writeBytes_skip]
  · exact upd_self _ _ _
  all_goals (simp only [le32bytes_length, lba2chs_length]; omega)

theorem writeEntry_chs_e (m : Nat → Nat) (idx s e t j : Nat) (hj : j < 3) :
    writeEntry m idx s e t (0x1BE + idx * 16 + 5 + j) = (lba2chs e).getD j 0 := by
  simp only [writeEntry, store32le]
  rw [writeBytes_skip, writeBytes_skip, upd_other]
  · exact writeBytes_at _ _ _ _ j (by simp only [lba2chs_length]; omega) (by omega)
  all_goals omega

theorem writeEntry_lba (m : Nat → Nat) (idx s e t j : Nat) (hj : j < 4) :
    writeEntry m idx s e t (0x1BE + idx * 16 + 8 + j) =
      (le32bytes (s % 2 ^ 32)).getD j 0 := by
  simp only [writeEntry, store32le]
  rw [writeBytes_skip]
  · exact writeBytes_at _ _ _ _ j (by simp only [le32bytes_length]; omega) (by omega)
  all_goals (simp only [le32bytes_length, lba2chs_length]; omega)

theorem writeEntry_count (m : Nat → Nat) (idx s e t j : Nat) (hj : j < 4) :
    writeEntry m idx s e t (0x1BE + idx * 16 + 0xC + j) =
      (le32bytes ((sub64 e s + 1) % 2 ^ 64 % 2 ^ 32)).getD j 0 := by
  simp only [writeEntry, store32le]
  exact writeBytes_at _ _ _ _ j (by simp only [le32bytes_length]; omega) (by omega)

theorem writeEntry_indep (m1 m2 : Nat → Nat) (idx s e t i : Nat)
    (h1 : 0x1BE + idx * 16 + 1 ≤ i) (h2 : i < 0x1BE + idx * 16 + 16) :
    writeEntry m1 idx s e t i = writeEntry m2 idx s e t i := by
  rcases (by omega :
      (1 ≤ i - (0x1BE + idx * 16) ∧ i - (0x1BE + idx * 16) < 4) ∨
      i - (0x1BE + idx * 16) = 4 ∨
      (5 ≤ i - (0x1BE + idx * 16) ∧ i - (0x1BE + idx * 16) < 8) ∨
      (8 ≤ i - (0x1BE + idx * 16) ∧ i - (0x1BE + idx * 16) < 12) ∨
      (12 ≤ i - (0x1BE + idx * 16) ∧ i - (0x1BE + idx * 16) < 16))
    with h | h | h | h | h
  · rw [show i = 0x1BE + idx * 16 + 1 + (i - (0x1BE + idx * 16) - 1) by omega,
      writeEntry_chs_s _ _ _ _ _ _ (by omega),
      writeEntry_chs_s _ _ _ _ _ _ (by omega)]
  · rw [show i = 0x1BE + idx * 16 + 0x4 by omega, writeEntry_type,
      writeEntry_type]
  · rw [show i = 0x1BE + idx * 16 + 5 + (i - (0x1BE + idx * 16) - 5) by omega,
      writeEntry_chs_e _ _ _ _ _ _ (by omega),
      writeEntry_chs_e _ _ _ _ _ _ (by omega)]
  · rw [show i = 0x1BE + idx * 16 + 8 + (i - (0x1BE + idx * 16) - 8) by omega,
      writeEntry_lba _ _ _ _ _ _ (by omega),
      writeEntry_lba _ _ _ _ _ _ (by omega)]
  · rw [show i = 0x1BE + idx * 16 + 0xC + (i - (0x1BE + idx * 16) - 12) by omega,
      writeEntry_count _ _ _ _ _ _ (by omega),
      writeEntry_count _ _ _ _ _ _ (by omega)]

/-! ## applyEntries readback lemmas -/

theorem applyEntries_out (es : List (Nat × Nat × Nat)) :
    ∀ (m : Nat → Nat) (p i : Nat),
      (i < 0x1BE + p * 16 + 1 ∨ 0x1BE + (p + es.length) * 16 ≤ i) →
      applyEntries m p es i = m i := by
  induction es with
  | nil => intro m p i _; rfl
  | cons e rest ih =>
    intro m p i h
    simp only [List.length_cons] at h
    simp only [applyEntries]
    rw [ih _ (p + 1) i (by omega)]
    exact writeEntry_out _ _ _ _ _ _ (by omega)

theorem applyEntries_byte0 (es : List (Nat × Nat × Nat)) :
    ∀ (m : Nat → Nat) (p k : Nat), k < es.length →
      applyEntries m p es (0x1BE + (p + k) * 16) =
        m (0x1BE + (p + k) * 16) := by
  induction es with
  | nil => intro m p k hk; simp at hk
  | cons e rest ih =>
    intro m p k hk
    simp only [applyEntries]
    cases k with
    | zero =>
      rw [applyEntries_out rest _ (p + 1) _ (Or.inl (by omega))]
      exact writeEntry_out _ _ _ _ _ _ (Or.inl (by omega))
    | succ k' =>
      have hk' : k' < rest.length := by simp at hk; omega
      rw [show p + (k' + 1) = (p + 1) + k' by omega]
      rw [ih _ (p + 1) k' hk']
      exact writeEntry_out _ _ _ _ _ _ (Or.inr (by omega))

theorem applyEntries_in (es : List (Nat × Nat × Nat)) :
    ∀ (m : Nat → Nat) (p k : Nat) (hk : k < es.length) (i : Nat),
      0x1BE + (p + k) * 16 + 1 ≤ i → i < 0x1BE + (p + k) * 16 + 16 →
      applyEntries m p es i =
        writeEntry (fun _ => 0) (p + k) (es.get ⟨k, hk⟩).1
          (es.get ⟨k, hk⟩).2.1 (es.get ⟨k, hk⟩).2.2 i := by
  induction es with
  | nil => intro m p k hk; simp at hk
  | cons e rest ih =>
    intro m p k hk i h1 h2
    simp only [applyEntries]
    cases k with
    | zero =>
      rw [applyEntries_out rest _ (p + 1) i (Or.inl (by omega))]
      simp only [List.get_cons_zero, Nat.add_zero]
      exact writeEntry_indep _ _ _ _ _ _ _ (by omega) (by omega)
    | succ k' =>
      have hk' : k' < rest.length := by simp at hk; omega
      rw [show p + (k' + 1) = (p + 1) + k' by omega] at h1 h2
      rw [ih _ (p + 1) k' hk' i h1 h2]
      rw [show p + (k' + 1) = (p + 1) + k' by omega, List.get_cons_succ]

/-! ## writePartitionTable layout -/

theorem wpt_entries_eq (f l s serial : Nat) :
    writePartitionTable f l s serial =
      upd (upd (applyEntries (store32le (fun _ => 0) 0x1B8 (serial % 2 ^ 32)) 0
        (ptEntries f l s)) 0x1FE 0x55) 0x1FF 0xAA := by
  simp only [writePartitionTable, ptEntries]
  split_ifs <;> simp [applyEntries]

theorem ptEntries_length_le (f l s : Nat) : (ptEntries f l s).length ≤ 3 := by
  simp only [ptEntries]
  split_ifs <;> simp

/-- C5: every MBR image produced by `writePartitionTable` has the boot
signature `0x55 0xAA` at offsets 0x1FE/0x1FF, contains at most 3 partition
entries, writes the i-th emitted entry (in emission order) into the 16-byte
slot at offset `0x1BE + 16·i` (boot-indicator byte 0, CHS start, type byte,
CHS end, LBA start, sector count), and never writes the fourth entry slot
(bytes 0x1EE–0x1FD stay zero). -/
theorem writePartitionTable_layout (f l s serial : Nat) :
    writePartitionTable f l s serial 0x1FE = 0x55 ∧
    writePartitionTable f l s serial 0x1FF = 0xAA ∧
    (ptEntries f l s).length ≤ 3 ∧
    (∀ i, ∀ hi : i < (ptEntries f l s).length,
      writePartitionTable f l s serial (0x1BE + i * 16) = 0 ∧
      (∀ j, j < 3 →
        writePartitionTable f l s serial (0x1BE + i * 16 + 1 + j) =
          (lba2chs ((ptEntries f l s).get ⟨i, hi⟩).1).getD j 0) ∧
      writePartitionTable f l s serial (0x1BE + i * 16 + 0x4) =
        ((ptEntries f l s).get ⟨i, hi⟩).2.2 ∧
      (∀ j, j < 3 →
        writePartitionTable f l s serial (0x1BE + i * 16 + 5 + j) =
          (lba2chs ((ptEntries f l s).get ⟨i, hi⟩).2.1).getD j 0) ∧
      (∀ j, j < 4 →
        writePartitionTable f l s serial (0x1BE + i * 16 + 8 + j) =
          (le32bytes (((ptEntries f l s).get ⟨i, hi⟩).1 % 2 ^ 32)).getD j 0) ∧
      (∀ j, j < 4 →
        writePartitionTable f l s serial (0x1BE + i * 16 + 0xC + j) =
          (le32bytes ((sub64 ((ptEntries f l s).get ⟨i, hi⟩).2.1
            ((ptEntries f l s).get ⟨i, hi⟩).1 + 1) % 2 ^ 64 % 2 ^ 32)).getD
            j 0)) ∧
    (∀ i, 0x1EE ≤ i → i < 0x1FE → writePartitionTable f l s serial i = 0) := by
  have hlen := ptEntries_length_le f l s
  refine ⟨?_, ?_, hlen, ?_, ?_⟩
  · rw [wpt_entries_eq, upd_other _ _ _ _ (by omega), upd_self]
  · rw [wpt_entries_eq, upd_self]
  · intro i hi
    have hi3 : i < 3 := lt_of_lt_of_le hi hlen
    refine ⟨?_, ?_, ?_, ?_, ?_, ?_⟩
    · rw [wpt_entries_eq, upd_other, upd_other,
        show 0x1BE + i * 16 = 0x1BE + (0 + i) * 16 by omega,
        applyEntries_byte0 _ _ 0 i hi]
      simp only [store32le]
      rw [writeBytes_skip]
      all_goals first | omega | (simp only [le32bytes_length]; omega)
    · intro j hj
      rw [wpt_entries_eq, upd_other, upd_other, applyEntries_in _ _ 0 i hi]
      · simp only [Nat.zero_add]
        exact writeEntry_chs_s _ _ _ _ _ _ hj
      all_goals omega
    · rw [wpt_entries_eq, upd_other, upd_other, applyEntries_in _ _ 0 i hi]
      · simp only [Nat.zero_add]
        exact writeEntry_type _ _ _ _ _
      all_goals omega
    · intro j hj
      rw [wpt_entries_eq, upd_other, upd_other, applyEntries_in _ _ 0 i hi]
      · simp only [Nat.zero_add]
        exact writeEntry_chs_e _ _ _ _ _ _ hj
      all_goals omega
    · intro j hj
      rw [wpt_entries_eq, upd_other, upd_other, applyEntries_in _ _ 0 i hi]
      · simp only [Nat.zero_add]
        exact writeEntry_lba _ _ _ _ _ _ hj
      all_goals omega
    · intro j hj
      rw [wpt_entries_eq, upd_other, upd_other, applyEntries_in _ _ 0 i hi]
      · simp only [Nat.zero_add]
        exact writeEntry_count _ _ _ _ _ _ hj
      all_goals omega
  · intro i h1 h2
    rw [wpt_entries_eq, upd_other _ _ _ _ (by omega), upd_other _ _ _ _ (by omega),
      applyEntries_out (ptEntries f l s) _ 0 i (Or.inr (by omega))]
    simp only [store32le]
    rw [writeBytes_skip]
    all_goals first | omega | (simp only [le32bytes_length]; omega)

/-- Witness for C5 at the §8 scenario: boot signature present and the
second emitted entry's type byte (at `0x1BE + 16 + 4`) is the bad type. -/
theorem writePartitionTable_layout_witness :
    writePartitionTable 536870912 536871423 1073741824 0 0x1FE = 0x55 ∧
    writePartitionTable 536870912 536871423 1073741824 0
      (0x1BE + 1 * 16 + 0x4) = 0xFF := by
  obtain ⟨hsig, _, _, hslot, _⟩ :=
    writePartitionTable_layout 536870912 536871423 1073741824 0
  refine ⟨hsig, ?_⟩
  rw [(hslot 1 (by decide)).2.2.1]
  decide

/-! ## Sector-count field lemmas -/

theorem ptEntries_mem_lt (f l s : Nat) :
    ∀ e ∈ ptEntries f l s, e.1 < 2 ^ 55 ∧ e.2.1 < 2 ^ 55 := by
  intro e he
  have h1 : f % 2 ^ 64 / 512 < 2 ^ 55 := by omega
  have h2 : (l % 2 ^ 64 + 1) % 2 ^ 64 / 512 < 2 ^ 55 := by omega
  have h3 : s % 2 ^ 64 / 512 < 2 ^ 55 := by omega
  simp only [ptEntries] at he
  split_ifs at he <;>
    simp only [List.mem_append, List.mem_singleton, List.not_mem_nil,
      or_false, false_or] at he
  all_goals
    first
      | exact he.elim
      | (rcases he with (rfl | rfl) | rfl <;> refine ⟨?_, ?_⟩ <;> dsimp only <;>
          omega)

/-- C1 counterexample: in the §8 scenario (1 GiB device, bad bytes
536,870,912–536,871,423) the bad entry covers sectors
`[1,048,576, 1,048,577)`, but the 32-bit count stored at entry offset 0xC is
2, not `entryEnd - entryStart = 1` — `writeEntry` stores `end - start + 1`. -/
theorem sectorCount_counterexample :
    ptEntries 536870912 536871423 1073741824 =
      [(0, 1048576, 0x0C), (1048576, 1048577, 0xFF),
        (1048577, 2097152, 0x0C)] ∧
    decode32at (writePartitionTable 536870912 536871423 1073741824 0)
      (0x1BE + 1 * 16 + 0xC) = 2 ∧
    (2 : Nat) ≠ 1048577 - 1048576 := by
  exact ⟨by decide, by decide, by decide⟩

/-- C1 (amended): for every entry emitted by `writePartitionTable` with
sector range `[entryStart, entryEnd)` (`entryStart ≤ entryEnd`), the 32-bit
little-endian field at entry offset 0xC stores
`(entryEnd - entryStart + 1) % 2^32` — one more than the claimed
`entryEnd - entryStart`, because `writeEntry` counts the end sector
inclusively; in the §8 scenario the bad entry therefore stores 2. -/
theorem sectorCount_field (f l s serial i : Nat)
    (hi : i < (ptEntries f l s).length)
    (hle : ((ptEntries f l s).get ⟨i, hi⟩).1 ≤
      ((ptEntries f l s).get ⟨i, hi⟩).2.1) :
    decode32at (writePartitionTable f l s serial) (0x1BE + i * 16 + 0xC) =
      (((ptEntries f l s).get ⟨i, hi⟩).2.1 -
        ((ptEntries f l s).get ⟨i, hi⟩).1 + 1) % 2 ^ 32 := by
  obtain ⟨hb1, hb2⟩ := ptEntries_mem_lt f l s ((ptEntries f l s).get ⟨i, hi⟩)
    (List.get_mem (ptEntries f l s) i hi)
  have hbyte : ∀ j, j < 4 →
      writePartitionTable f l s serial (0x1BE + i * 16 + 0xC + j) =
        (le32bytes ((sub64 ((ptEntries f l s).get ⟨i, hi⟩).2.1
          ((ptEntries f l s).get ⟨i, hi⟩).1 + 1) % 2 ^ 64 % 2 ^ 32)).getD
          j 0 := by
    intro j hj
    rw [wpt_entries_eq, upd_other, upd_other, applyEntries_in _ _ 0 i hi]
    · simp only [Nat.zero_add]
      exact writeEntry_count _ _ _ _ _ _ hj
    all_goals omega
  have e0 := hbyte 0 (by omega)
  have e1 := hbyte 1 (by omega)
  have e2 := hbyte 2 (by omega)
  have e3 := hbyte 3 (by omega)
  rw [Nat.add_zero] at e0
  unfold decode32at
  rw [e0, e1, e2, e3]
  simp only [le32bytes, List.getD_cons_zero, List.getD_cons_succ]
  unfold sub64
  omega

/-- Witness for the amended C1 at the §8 scenario's bad entry: the stored
count is `(1048577 - 1048576 + 1) % 2^32 = 2`. -/
theorem sectorCount_field_witness :
    decode32at (writePartitionTable 536870912 536871423 1073741824 0)
      (0x1BE + 1 * 16 + 0xC) = 2 := by
  have h := sectorCount_field 536870912 536871423 1073741824 0 1 (by decide)
    (by decide)
  exact h.trans (by decide)
